import Mathlib

/-!
# Verification of the web-pokedex data-fetching core

Shallow embedding of the client-side data-fetching and list-state core of
the `web-pokedex` repository, together with proofs and refutations of the
design-specification claims about it.

Embedded source units:
* `usePokemons` (the Generation Pager hook): generation table, page-size
  arithmetic, the merge/dedup/sort step, and an event-level state machine
  for its reset / load / complete / next-page behaviour.
* `pokemon.service.ts` (`getPokemonIndex`): the module-level single-flight
  index cache, as a state machine over call / resolve / reject events.
* `useGlobalSearch`: the local index matching pipeline and an event-level
  model of its result-application behaviour under superseding queries.
* `pokemon.mapper.ts` (`extractIdFromUrl`, `mapPokemonIndex`): URL id
  extraction, with JavaScript `Number` modelled on decimal segments and
  `NaN` modelled as `none`.
* `api.ts` (`getPokemons`): the localStorage response-cache persistence
  step with its quota-failure handling.

JavaScript numbers are modelled as `Nat` (all quantities involved are
non-negative array indices / counts; where the source can produce a
negative intermediate, the embedding notes it at the definition).
-/

namespace Pokedex

/-- One entry of a record's `types` array (`{ type: { name } }` in
`interfaces/pokemon`), flattened to the type name it carries. -/
structure PokemonType where
  typeName : String
deriving DecidableEq, Repr

/-- The normalized record shape produced by `simplifyPokemon` in
`services/api.ts` and consumed by the hooks. -/
structure Pokemon where
  id : Nat
  name : String
  types : List PokemonType
  weight : Nat
  height : Nat
deriving DecidableEq, Repr

/-- The nine supported generations (`Generation` union type in
`usePokemons`). -/
inductive Generation
  | gen1 | gen2 | gen3 | gen4 | gen5 | gen6 | gen7 | gen8 | gen9
deriving DecidableEq, Repr

/-- The four sort strategies (`SortOption` union type in `usePokemons`). -/
inductive SortOption
  | ID_ASC | ID_DESC | AZ | ZA
deriving DecidableEq, Repr

/-- The `GENERATIONS` table of `usePokemons`: `offset` of the first catalog
index of each generation. -/
def generationOffset : Generation → Nat
  | .gen1 => 0
  | .gen2 => 151
  | .gen3 => 251
  | .gen4 => 386
  | .gen5 => 493
  | .gen6 => 649
  | .gen7 => 721
  | .gen8 => 809
  | .gen9 => 905

/-- The `GENERATIONS` table of `usePokemons`: `limit` (entry count) of each
generation. -/
def generationLimit : Generation → Nat
  | .gen1 => 151
  | .gen2 => 100
  | .gen3 => 135
  | .gen4 => 107
  | .gen5 => 156
  | .gen6 => 72
  | .gen7 => 88
  | .gen8 => 96
  | .gen9 => 120

/-- `PAGE_SIZE` constant of `usePokemons`. -/
def PAGE_SIZE : Nat := 20

/-- One `map.set(p.id, p)` step of the JS `Map` built in `loadPokemons`
(`usePokemons`): an existing key keeps its position and takes the new
value; a new key is appended in insertion order. -/
def mapSet (m : List Pokemon) (p : Pokemon) : List Pokemon :=
  if m.any (fun q => q.id == p.id) then
    m.map (fun q => if q.id == p.id then p else q)
  else
    m ++ [p]

/-- The JS comparator `(a, b) => a.id - b.id` used by `loadPokemons` to keep
internal storage sorted, as an order on records. -/
def byId (a b : Pokemon) : Prop := a.id ≤ b.id

instance : DecidableRel byId := fun a b => Nat.decLe a.id b.id

instance : IsTotal Pokemon byId := ⟨fun a b => Nat.le_total a.id b.id⟩

instance : IsTrans Pokemon byId := ⟨fun _ _ _ => Nat.le_trans⟩

/-- The `setPokemons` merge step of `loadPokemons` (`usePokemons`, the
in-flight page completion): build a `Map` keyed by id over
`[...prev, ...newPokemons]` (later entries win), then sort the values by
ascending id (`Array.from(map.values()).sort((a, b) => a.id - b.id)`);
modelled with a stable sort, as JS `Array.prototype.sort` is stable. -/
def mergePokemons (prev fetched : List Pokemon) : List Pokemon :=
  List.insertionSort byId (List.foldl mapSet [] (prev ++ fetched))

/-! ## The Generation Pager as an event-level state machine

`usePokemons` keeps React state `pokemons`, `loadedCount`, `loading`,
`hasMore`, plus the current `generation`/`sort` parameters. Its behaviour
decomposes into four atomic transitions (each synchronous segment of the
hook between suspension points):

* the reset effect with dependencies `[generation, sort]`, which runs
  `setPokemons([]); setHasMore(true)` — and nothing else — when either
  parameter changes;
* the synchronous prefix of `loadPokemons` up to its `await getPokemons`
  (guard, `setLoading(true)`, page-size and offset arithmetic, the
  `limit <= 0` early exit);
* the resumption of `loadPokemons` after the awaited response arrives
  (the `setPokemons` merge, the `hasMore` update from the values captured
  by the closure at request time, and the `finally` clearing `loading`);
* `fetchNextPage`, which bumps `loadedCount` by `PAGE_SIZE` when
  `!loading && hasMore`.

The awaited response is held in `inflight` together with the values the
async closure captured at request time (`loadedCount`, the computed
`limit`, and the generation's `limit`). The source attaches no session tag
to an in-flight load: nothing records which generation/sort it was issued
for, and its completion applies unconditionally. -/

/-- Abstract network environment: what `getPokemons(offset, limit)` will
deliver for each offset/limit pair. -/
abbrev FetchEnv := Nat → Nat → List Pokemon

/-- An in-flight `loadPokemons` await: the response it will deliver, and
the values its closure captured at request time. -/
structure InflightLoad where
  response : List Pokemon
  loadedCountAtRequest : Nat
  limitAtRequest : Nat
  generationLimitAtRequest : Nat
deriving DecidableEq, Repr

/-- The React state of one mounted `usePokemons`, plus its current
parameters and at most one in-flight load (the `loading` guard prevents a
second one while `loading = true`). -/
structure PagerState where
  generation : Generation
  sort : SortOption
  pokemons : List Pokemon
  loadedCount : Nat
  loading : Bool
  hasMore : Bool
  inflight : Option InflightLoad
deriving DecidableEq, Repr

/-- Initial state of a freshly mounted hook with the given parameters. -/
def pagerInit (g : Generation) (s : SortOption) : PagerState :=
  { generation := g, sort := s, pokemons := [], loadedCount := 0
    loading := false, hasMore := true, inflight := none }

/-- The four atomic transitions of the hook. -/
inductive PagerEvent
  | changeParams (g : Generation) (s : SortOption)
  | startLoad
  | completeLoad
  | fetchNextPage
deriving DecidableEq, Repr

/-- One atomic transition of `usePokemons`.

* `changeParams`: the `[generation, sort]` effect — `setPokemons([])`,
  `setHasMore(true)`. `loadedCount`, `loading` and the in-flight load are
  untouched (the source resets neither).
* `startLoad`: `loadPokemons` up to its `await`. The `limit <= 0` early
  exit (JS `Math.min(PAGE_SIZE, generationLimit - loadedCount) <= 0`,
  i.e. `generationLimit ≤ loadedCount`) sets `hasMore` to `false`; its
  transient `setLoading(true)`/`finally setLoading(false)` pair nets to the
  unchanged `loading = false`. Otherwise the offset is
  `baseOffset + generationLimit - loadedCount - limit` for `ID_DESC`
  (written `base + (L - lc - limit)`, equal to the JS integer value since
  `limit ≤ L - lc` here) and `baseOffset + loadedCount` otherwise.
* `completeLoad`: the awaited response is merged via `mergePokemons` into
  the *current* `pokemons` (functional `setPokemons` update); `hasMore` is
  recomputed from the values captured at request time; `loading` clears.
* `fetchNextPage`: bumps `loadedCount` by `PAGE_SIZE` when
  `!loading && hasMore`. -/
def pagerStep (env : FetchEnv) (st : PagerState) : PagerEvent → PagerState
  | .changeParams g s =>
      { st with generation := g, sort := s, pokemons := [], hasMore := true }
  | .startLoad =>
      if st.loading || !st.hasMore then st
      else
        let L := generationLimit st.generation
        let base := generationOffset st.generation
        if L ≤ st.loadedCount then { st with hasMore := false }
        else
          let limit := min PAGE_SIZE (L - st.loadedCount)
          let offset :=
            if st.sort = SortOption.ID_DESC then base + (L - st.loadedCount - limit)
            else base + st.loadedCount
          { st with loading := true,
                    inflight := some ⟨env offset limit, st.loadedCount, limit, L⟩ }
  | .completeLoad =>
      match st.inflight with
      | none => st
      | some fl =>
          { st with
            pokemons := mergePokemons st.pokemons fl.response
            hasMore :=
              if fl.generationLimitAtRequest ≤
                  fl.loadedCountAtRequest + fl.limitAtRequest then false
              else st.hasMore
            loading := false
            inflight := none }
  | .fetchNextPage =>
      if !st.loading && st.hasMore then
        { st with loadedCount := st.loadedCount + PAGE_SIZE }
      else st

/-- Run a sequence of pager transitions. -/
def runPager (env : FetchEnv) (st : PagerState) (evs : List PagerEvent) : PagerState :=
  evs.foldl (pagerStep env) st

/-- A catalog record as served for catalog index `i` (the list endpoint at
offset `o` yields the records of indices `o, o+1, …`; only the id matters
here, taken as `index + 1` as in the remote catalog). -/
def catalogPokemon (i : Nat) : Pokemon :=
  { id := i + 1, name := "", types := [], weight := 0, height := 0 }

/-- A concrete faithful environment: the page at `offset`/`limit` holds the
records of catalog indices `offset, …, offset + limit - 1`. -/
def pageEnv : FetchEnv := fun offset limit =>
  (List.range limit).map (fun k => catalogPokemon (offset + k))

/-! ## Drain arithmetic of `loadPokemons`

Within one generation+sort session the hook's page requests follow the
arithmetic of `loadPokemons` (lines 95–117): with `lc` the `loadedCount`
at request time, `L` the generation `limit` and `base` its `offset`, a
page fetches `limit = min(PAGE_SIZE, L - lc)` records at offset
`base + lc` (ascending) or `base + L - lc - limit` (descending);
`fetchNextPage` then advances `loadedCount` by `PAGE_SIZE`, and the
session ends (`hasMore = false`) after the page with `lc + limit ≥ L`.
The two functions below collect all catalog indices fetched by a full
drain, one per sort direction. -/

/-- Catalog indices fetched by draining a session ascending, starting from
`loadedCount = lc`. -/
def ascDrain (base L lc : Nat) : Finset Nat :=
  if _h : L ≤ lc then ∅
  else if _h2 : L ≤ lc + min PAGE_SIZE (L - lc) then
    Finset.Ico (base + lc) (base + lc + min PAGE_SIZE (L - lc))
  else
    Finset.Ico (base + lc) (base + lc + min PAGE_SIZE (L - lc)) ∪
      ascDrain base L (lc + PAGE_SIZE)
termination_by L - lc
decreasing_by simp only [PAGE_SIZE] at *; omega

/-- Catalog indices fetched by draining a session in `ID_DESC` mode,
starting from `loadedCount = lc`: each page sits at offset
`base + L - lc - limit` (written `base + (L - lc - limit)`, equal to the
JS integer value since `limit ≤ L - lc` in every taken branch). -/
def descDrain (base L lc : Nat) : Finset Nat :=
  if _h : L ≤ lc then ∅
  else if _h2 : L ≤ lc + min PAGE_SIZE (L - lc) then
    Finset.Ico (base + (L - lc - min PAGE_SIZE (L - lc)))
      (base + (L - lc - min PAGE_SIZE (L - lc)) + min PAGE_SIZE (L - lc))
  else
    Finset.Ico (base + (L - lc - min PAGE_SIZE (L - lc)))
      (base + (L - lc - min PAGE_SIZE (L - lc)) + min PAGE_SIZE (L - lc)) ∪
      descDrain base L (lc + PAGE_SIZE)
termination_by L - lc
decreasing_by simp only [PAGE_SIZE] at *; omega

/-! ## The Index Cache (`pokemon.service.ts`) as a state machine

`getPokemonIndex` operates on two module-level variables:
`indexCache : PokemonIndexItem[] | null` and
`indexPending : Promise<PokemonIndexItem[]> | null`.  The function body is
synchronous (it never awaits between its checks and its assignment), so
each call is one atomic transition; promise settlement (fulfilment or
rejection of the underlying `fetchPokemonIndex()`) is a separate atomic
transition delivered later by the event loop.  Promises are given
identities (`Nat` ids) so that "all callers receive the *same* pending
operation" is expressible; `fetchCount` counts underlying network
fetches. -/

/-- `PokemonIndexItem` of `pokemon.service.ts`. -/
structure PokemonIndexItem where
  name : String
  id : Nat
deriving DecidableEq, Repr

/-- Settlement status of the promise currently held by `indexPending`. -/
inductive PromStatus
  | pending
  | resolved (xs : List PokemonIndexItem)
  | rejected
deriving DecidableEq, Repr

/-- Module state of `pokemon.service.ts`. `status` is meaningful only
while `pendingId` is set (there is no promise before the first call). -/
structure SvcState where
  cache : Option (List PokemonIndexItem)
  pendingId : Option Nat
  status : PromStatus
  nextPid : Nat
  fetchCount : Nat
deriving DecidableEq, Repr

/-- Module state at process start: both variables `null`, no fetch yet. -/
def svcInit : SvcState :=
  { cache := none, pendingId := none, status := PromStatus.pending
    nextPid := 0, fetchCount := 0 }

/-- What one `getPokemonIndex()` call hands back to its caller: either the
cached resolved sequence (`return indexCache`) or the shared in-flight
promise (`return indexPending`, identified by its id). -/
inductive CallResult
  | cachedValue (xs : List PokemonIndexItem)
  | sharedPending (pid : Nat)
deriving DecidableEq, Repr

/-- One `getPokemonIndex()` call: `if (indexCache) return indexCache;
if (indexPending) return indexPending;` and otherwise start the single
fetch, store the new promise in `indexPending` and return it. -/
def svcCall (s : SvcState) : CallResult × SvcState :=
  match s.cache with
  | some xs => (CallResult.cachedValue xs, s)
  | none =>
    match s.pendingId with
    | some pid => (CallResult.sharedPending pid, s)
    | none =>
        (CallResult.sharedPending s.nextPid,
         { s with pendingId := some s.nextPid, status := PromStatus.pending
                  nextPid := s.nextPid + 1, fetchCount := s.fetchCount + 1 })

/-- Fulfilment of the underlying fetch: the `.then` callback stores the
mapped sequence in `indexCache`, and the promise held by `indexPending`
settles as resolved with that sequence. A promise settles at most once. -/
def svcResolve (s : SvcState) (xs : List PokemonIndexItem) : SvcState :=
  if s.pendingId.isSome ∧ s.status = PromStatus.pending then
    { s with cache := some xs, status := PromStatus.resolved xs }
  else s

/-- Rejection of the underlying fetch: the `.then` callback never runs, so
`indexCache` stays `null` and `indexPending` keeps holding the (now
rejected) promise — nothing clears it. -/
def svcReject (s : SvcState) : SvcState :=
  if s.pendingId.isSome ∧ s.status = PromStatus.pending then
    { s with status := PromStatus.rejected }
  else s

/-- Atomic transitions of the index-cache module. -/
inductive SvcEvent
  | call
  | resolve (xs : List PokemonIndexItem)
  | reject
deriving DecidableEq, Repr

/-- One transition; `call` additionally produces a caller-visible result. -/
def svcStep (s : SvcState) : SvcEvent → SvcState × Option CallResult
  | SvcEvent.call => let p := svcCall s; (p.2, some p.1)
  | SvcEvent.resolve xs => (svcResolve s xs, none)
  | SvcEvent.reject => (svcReject s, none)

/-- Run a sequence of transitions, collecting every call's result. -/
def runSvc (s : SvcState) : List SvcEvent → SvcState × List CallResult
  | [] => (s, [])
  | e :: t =>
      let p := svcStep s e
      let q := runSvc p.1 t
      (q.1, p.2.toList ++ q.2)

/-- Structural invariant of the module state: at most one promise is ever
created (its id is `0`), a fetch has happened exactly when a promise
exists, and the cache is populated only by that promise's resolution. -/
def SvcInv (s : SvcState) : Prop :=
  (s.pendingId = none → s.cache = none ∧ s.fetchCount = 0 ∧ s.nextPid = 0)
  ∧ (∀ pid, s.pendingId = some pid → pid = 0 ∧ s.nextPid = 1 ∧ s.fetchCount = 1)
  ∧ (∀ xs, s.cache = some xs →
      s.pendingId = some 0 ∧ s.status = PromStatus.resolved xs)

/-- Caller-visible soundness of one result: any pending handed out is the
single promise `0`. -/
def resultOk : CallResult → Bool
  | CallResult.sharedPending pid => pid == 0
  | CallResult.cachedValue _ => true

/-! ## Global search: local index matching (`useGlobalSearch`, step 2) -/

/-- JS `s.includes(pat)`: `pat` occurs contiguously in `s`. -/
def containsSubstr (s pat : String) : Bool :=
  (s.data.tails).any (fun t => pat.data.isPrefixOf t)

/-- The match predicate of `useGlobalSearch`:
`p.name.includes(term) || p.id.toString().includes(term)` (`toString` on a
non-negative integer is its decimal representation, `Nat.repr`). -/
def searchPred (term : String) (p : PokemonIndexItem) : Bool :=
  containsSubstr p.name term || containsSubstr (Nat.repr p.id) term

/-- Step 2 of `fetchResults` in `useGlobalSearch`:
`index.filter(p => p.name.includes(term) || p.id.toString().includes(term))
.slice(0, 20)` — `slice(0, 20)` on an array is its first 20 elements. -/
def searchMatches (index : List PokemonIndexItem) (term : String) :
    List PokemonIndexItem :=
  (index.filter (searchPred term)).take 20

/-! ## Global search: result application under superseding queries

`useGlobalSearch` re-runs its effect whenever `search` changes. Each run
(for a non-empty normalized term) starts an async `fetchResults`; on
completion `setResults(detailed.filter(Boolean))` is applied
*unconditionally* — the `AbortController` created by the effect is never
passed to any fetch and its signal is never consulted, so the cleanup's
`controller.abort()` has no effect on the in-flight work. The model keeps
every not-yet-completed invocation; a `complete i` event delivers the
`i`-th one's resolution (any completion order is possible), and, as in the
source, applies it with no staleness check. -/

/-- One in-flight `fetchResults` run: the normalized term it was invoked
for and the detailed records its `Promise.all` will deliver (nulls
already filtered, as in `detailed.filter(Boolean)`). -/
structure SearchInvocation where
  term : String
  payload : List Pokemon
deriving DecidableEq, Repr

/-- React state of one mounted `useGlobalSearch` plus its in-flight runs. -/
structure SearchState where
  search : String
  results : List Pokemon
  loading : Bool
  inflight : List SearchInvocation
deriving DecidableEq, Repr

/-- Fresh hook state (empty query, no results). -/
def searchInit : SearchState :=
  { search := "", results := [], loading := false, inflight := [] }

/-- Environment: the detailed records the network will eventually deliver
for each normalized term. -/
abbrev SearchEnv := String → List Pokemon

/-- Transitions: the effect run after `search` changes to `q`, and the
completion of the `i`-th in-flight run. -/
inductive SearchEvent
  | setQuery (q : String)
  | complete (i : Nat)
deriving DecidableEq, Repr

/-- One atomic transition of `useGlobalSearch`.

* `setQuery q` with `q` empty: `setResults([])` and return — no fetch.
* `setQuery q` non-empty: a new `fetchResults` starts (`setLoading(true)`)
  and is recorded in flight with the payload it will deliver.
* `complete i`: the `i`-th in-flight run resolves;
  `setResults(its payload)` and `setLoading(false)` run unconditionally —
  the source compares no token and no query before applying them. -/
def searchStep (env : SearchEnv) (st : SearchState) : SearchEvent → SearchState
  | SearchEvent.setQuery q =>
      if q = "" then { st with search := q, results := [] }
      else
        { st with search := q, loading := true
                  inflight := st.inflight ++ [⟨q, env q⟩] }
  | SearchEvent.complete i =>
      match st.inflight[i]? with
      | none => st
      | some inv =>
          { st with results := inv.payload, loading := false
                    inflight := st.inflight.eraseIdx i }

/-- Run a sequence of search transitions. -/
def runSearch (env : SearchEnv) (st : SearchState) (evs : List SearchEvent) :
    SearchState :=
  evs.foldl (searchStep env) st

/-- A two-query environment for the refutation trace: query `"a"` resolves
to one record, query `"b"` to another. -/
def twoQueryEnv : SearchEnv := fun q =>
  if q = "a" then [{ id := 1, name := "bulbasaur", types := [], weight := 69, height := 7 }]
  else if q = "b" then [{ id := 9, name := "blastoise", types := [], weight := 855, height := 16 }]
  else []

/-! ## URL id extraction (`pokemon.mapper.ts`) -/

/-- JS `url.split('/')`: the (possibly empty) chunks of the character list
between `'/'` separators. -/
def splitSlash : List Char → List (List Char)
  | [] => [[]]
  | c :: rest =>
      if c = '/' then [] :: splitSlash rest
      else
        match splitSlash rest with
        | [] => [[c]]
        | seg :: segs => (c :: seg) :: segs

/-- Numeric value of a decimal-digit character list (the value JS `Number`
gives a pure digit string). -/
def digitsVal (s : List Char) : Nat :=
  s.foldl (fun a c => 10 * a + (c.toNat - 48)) 0

/-- JS `Number(seg)` on the segments this code can meet, with `NaN` as
`none`: a non-empty all-digit segment parses to its value; a segment
containing a non-digit character is `NaN` (as is `Number(undefined)` for
a missing segment, handled at the caller). The full JS `Number` grammar
(signs, fractions, exponents, hex, whitespace) is out of scope: catalog
resource URLs end in a decimal id segment or are malformed. -/
def jsNumber (s : List Char) : Option Nat :=
  if s ≠ [] ∧ s.all (fun c => c.isDigit) then some (digitsVal s) else none

/-- `extractIdFromUrl` of `pokemon.mapper.ts`:
`url.split('/').filter(Boolean)` keeps the non-empty segments
(`Boolean("")` is `false`), then `Number(segments[segments.length - 1])`
parses the last one — `undefined` (no segment) and unparseable segments
give `NaN`, modelled as `none`. -/
def extractIdFromUrl (url : String) : Option Nat :=
  match ((splitSlash url.data).filter (fun seg => seg ≠ [])).getLast? with
  | none => none
  | some s => jsNumber s

/-- A raw entry of the remote index payload (`{ name, url }`). -/
structure RawIndexEntry where
  name : String
  url : String
deriving DecidableEq, Repr

/-- `mapPokemonIndex` of `pokemon.mapper.ts`: map each raw entry to its
name and extracted id (`none` = the `NaN` id `Number` can silently
produce). -/
def mapPokemonIndex (results : List RawIndexEntry) : List (String × Option Nat) :=
  results.map (fun e => (e.name, extractIdFromUrl e.url))

/-- Spec-side decimal printer: the canonical decimal digit string of `n`
(defined here independently, to state that `extractIdFromUrl` parses
decimal id segments correctly). -/
def decimalRepr (n : Nat) : List Char :=
  if _h : n < 10 then [Char.ofNat (n + 48)]
  else decimalRepr (n / 10) ++ [Char.ofNat (n % 10 + 48)]
termination_by n
decreasing_by omega

/-! ## Response-cache persistence (`services/api.ts`, `getPokemons`) -/

/-- Storage failure taxonomy relevant here. -/
inductive StorageError
  | quotaExceeded
deriving DecidableEq, Repr

/-- The `pokedex_cache` object: a name-keyed mapping of records (a JS
object, insertion-ordered). -/
abbrev NameCache := List (String × Pokemon)

/-- `fullCache[name]` read. -/
def cacheLookup (m : NameCache) (n : String) : Option Pokemon :=
  (m.find? (fun e => e.1 == n)).map (fun e => e.2)

/-- `fullCache[name] = p` write: replace in place or append. -/
def cacheStore (m : NameCache) (n : String) (p : Pokemon) : NameCache :=
  if m.any (fun e => e.1 == n) then
    m.map (fun e => if e.1 == n then (n, p) else e)
  else m ++ [(n, p)]

/-- `localStorage.setItem(CACHE_KEY, …)`: fails with a quota error when
storage is full (`quota`), otherwise persists the serialized mapping. -/
def setItemModel (quota : Bool) (m : NameCache) :
    Except StorageError (Option NameCache) :=
  if quota then Except.error StorageError.quotaExceeded else Except.ok (some m)

/-- `getPokemons(offset, limit)` of `services/api.ts`, from the point the
page listing `page` (the fetched `data.results` names) is known:
each `Promise.all` callback synchronously checks the cache loaded at
entry (all checks run before any write lands) and otherwise fetches the
detail (`detail` is the network's record for a name); the updated cache
is then persisted inside `try { setItem } catch { removeItem }`; finally
the in-memory details are returned. The `Except` layer carries any
*uncaught* storage error to the caller — the catch clause turns a quota
failure into `removeItem` (cache := `none`) and proceeds. -/
def getPokemons (storage : Option NameCache) (page : List String)
    (detail : String → Pokemon) (quota : Bool) :
    Except StorageError (Option NameCache × List Pokemon) :=
  let fullCache := storage.getD []
  let details := page.map (fun n => (cacheLookup fullCache n).getD (detail n))
  let updated := page.foldl
    (fun m n => if (cacheLookup fullCache n).isSome then m
                else cacheStore m n (detail n)) fullCache
  match setItemModel quota updated with
  | Except.ok r => Except.ok (r, details)
  | Except.error _ => Except.ok (none, details)

end Pokedex

namespace Pokedex

/-! ## Lemmas about the merge step -/

theorem mapSet_ids_nodup (m : List Pokemon) (p : Pokemon)
    (h : (m.map Pokemon.id).Nodup) : ((mapSet m p).map Pokemon.id).Nodup := by
  unfold mapSet
  split
  · have : (m.map (fun q => if q.id == p.id then p else q)).map Pokemon.id
        = m.map Pokemon.id := by
      simp only [List.map_map]
      apply List.map_congr_left
      intro q _
      by_cases hq : q.id = p.id
      · simp [Function.comp, hq]
      · simp [Function.comp, hq]
    rw [this]
    exact h
  · rename_i hnot
    rw [List.map_append]
    simp only [List.map_cons, List.map_nil]
    rw [List.nodup_append]
    refine ⟨h, List.nodup_singleton _, ?_⟩
    intro a ha
    simp only [List.mem_singleton]
    intro hb
    apply hnot
    simp only [List.any_eq_true]
    rcases List.mem_map.mp ha with ⟨q, hqm, hqid⟩
    exact ⟨q, hqm, by simp [hqid, hb]⟩

theorem foldl_mapSet_ids_nodup (l : List Pokemon) :
    ∀ acc : List Pokemon, (acc.map Pokemon.id).Nodup →
      ((List.foldl mapSet acc l).map Pokemon.id).Nodup := by
  induction l with
  | nil => intro acc h; simpa using h
  | cons p t ih =>
      intro acc h
      exact ih (mapSet acc p) (mapSet_ids_nodup acc p h)

/-- **C9.** After every completed page-load merge, the Pager's accumulated
list has pairwise-distinct ids and is in strictly ascending id order,
whatever the inputs (hence whatever the sort mode or fetch direction that
produced them); display order is re-derived separately. -/
theorem mergePokemons_strict_sorted_by_id (prev fetched : List Pokemon) :
    ((mergePokemons prev fetched).map Pokemon.id).Sorted (· < ·) := by
  unfold mergePokemons
  set base := List.foldl mapSet [] (prev ++ fetched) with hbase
  have hnodup : (base.map Pokemon.id).Nodup :=
    foldl_mapSet_ids_nodup (prev ++ fetched) [] (by simp)
  have hperm : List.Perm (List.insertionSort byId base) base :=
    List.perm_insertionSort byId base
  have hnodup' : ((List.insertionSort byId base).map Pokemon.id).Nodup :=
    ((hperm.map Pokemon.id).nodup_iff).mpr hnodup
  have hsorted : (List.insertionSort byId base).Sorted byId :=
    List.sorted_insertionSort byId base
  have hpair : (List.insertionSort byId base).Pairwise
      (fun a b => a.id ≤ b.id ∧ a.id ≠ b.id) := by
    have h1 : (List.insertionSort byId base).Pairwise (fun a b => a.id ≤ b.id) := hsorted
    have h2 : (List.insertionSort byId base).Pairwise (fun a b => a.id ≠ b.id) :=
      List.pairwise_map.mp hnodup'
    exact h1.and h2
  have : (List.insertionSort byId base).Pairwise (fun a b => a.id < b.id) :=
    hpair.imp (fun h => Nat.lt_of_le_of_ne h.1 h.2)
  exact List.pairwise_map.mpr this

/-! ## Single-flight behaviour of the Index Cache -/

theorem svcInv_init : SvcInv svcInit := by
  refine ⟨fun _ => ⟨rfl, rfl, rfl⟩, ?_, ?_⟩
  · intro pid h
    simp [svcInit] at h
  · intro xs h
    simp [svcInit] at h

theorem svcInv_step (s : SvcState) (e : SvcEvent) (h : SvcInv s) :
    SvcInv (svcStep s e).1 := by
  obtain ⟨h1, h2, h3⟩ := h
  cases e with
  | call =>
      cases hc : s.cache with
      | some xs =>
          simp only [svcStep, svcCall, hc]
          exact ⟨h1, h2, h3⟩
      | none =>
          cases hp : s.pendingId with
          | some pid =>
              simp only [svcStep, svcCall, hc, hp]
              exact ⟨h1, h2, h3⟩
          | none =>
              obtain ⟨_, hf0, hn0⟩ := h1 hp
              simp only [svcStep, svcCall, hc, hp]
              refine ⟨?_, ?_, ?_⟩
              · intro hcontra
                simp at hcontra
              · intro pid hpid
                simp at hpid
                simp [← hpid, hn0, hf0]
              · intro xs hxs
                simp [hc] at hxs
  | resolve xs =>
      simp only [svcStep, svcResolve]
      by_cases hcond : s.pendingId.isSome ∧ s.status = PromStatus.pending
      · rw [if_pos hcond]
        obtain ⟨hsome, _⟩ := hcond
        obtain ⟨pid, hpid⟩ := Option.isSome_iff_exists.mp hsome
        obtain ⟨hpid0, _, _⟩ := h2 pid hpid
        refine ⟨?_, ?_, ?_⟩
        · intro hnone
          simp [hpid] at hnone
        · intro pid' hpid'
          exact h2 pid' hpid'
        · intro ys hys
          simp at hys
          subst hys
          exact ⟨by rw [hpid, hpid0], rfl⟩
      · rw [if_neg hcond]
        exact ⟨h1, h2, h3⟩
  | reject =>
      simp only [svcStep, svcReject]
      by_cases hcond : s.pendingId.isSome ∧ s.status = PromStatus.pending
      · rw [if_pos hcond]
        obtain ⟨hsome, hpend⟩ := hcond
        refine ⟨?_, ?_, ?_⟩
        · intro hnone
          rw [hnone] at hsome
          simp at hsome
        · intro pid' hpid'
          exact h2 pid' hpid'
        · intro ys hys
          obtain ⟨_, hstat⟩ := h3 ys hys
          rw [hstat] at hpend
          simp at hpend
      · rw [if_neg hcond]
        exact ⟨h1, h2, h3⟩

theorem svcStep_out_ok (s : SvcState) (e : SvcEvent) (h : SvcInv s) :
    ∀ r, (svcStep s e).2 = some r → resultOk r = true := by
  obtain ⟨h1, h2, _⟩ := h
  cases e with
  | call =>
      intro r hr
      cases hc : s.cache with
      | some xs =>
          simp only [svcStep, svcCall, hc] at hr
          cases hr
          rfl
      | none =>
          cases hp : s.pendingId with
          | some pid =>
              simp only [svcStep, svcCall, hc, hp] at hr
              cases hr
              obtain ⟨hpid0, _, _⟩ := h2 pid hp
              simp [resultOk, hpid0]
          | none =>
              obtain ⟨_, _, hn0⟩ := h1 hp
              simp only [svcStep, svcCall, hc, hp] at hr
              cases hr
              simp [resultOk, hn0]
  | resolve xs =>
      intro r hr
      simp [svcStep] at hr
  | reject =>
      intro r hr
      simp [svcStep] at hr

theorem runSvc_inv (evs : List SvcEvent) :
    ∀ s, SvcInv s → SvcInv (runSvc s evs).1 := by
  induction evs with
  | nil => intro s h; exact h
  | cons e t ih =>
      intro s h
      simp only [runSvc]
      exact ih _ (svcInv_step s e h)

theorem runSvc_outs_ok (evs : List SvcEvent) :
    ∀ s, SvcInv s → (runSvc s evs).2.all resultOk = true := by
  induction evs with
  | nil => intro s _; rfl
  | cons e t ih =>
      intro s h
      simp only [runSvc, List.all_append, Bool.and_eq_true]
      refine ⟨?_, ih _ (svcInv_step s e h)⟩
      cases hout : (svcStep s e).2 with
      | none => simp
      | some r =>
          simp only [Option.toList, List.all_cons, List.all_nil, Bool.and_true]
          exact svcStep_out_ok s e h r hout

theorem svcStep_keeps_called (s : SvcState) (e : SvcEvent)
    (hp : s.pendingId = some 0) (hf : s.fetchCount = 1) :
    (svcStep s e).1.pendingId = some 0 ∧ (svcStep s e).1.fetchCount = 1 := by
  cases e with
  | call =>
      cases hc : s.cache with
      | some xs => simp only [svcStep, svcCall, hc]; exact ⟨hp, hf⟩
      | none => simp [svcStep, svcCall, hc, hp, hf]
  | resolve xs =>
      simp only [svcStep, svcResolve]
      split
      · exact ⟨hp, hf⟩
      · exact ⟨hp, hf⟩
  | reject =>
      simp only [svcStep, svcReject]
      split
      · exact ⟨hp, hf⟩
      · exact ⟨hp, hf⟩

theorem runSvc_keeps_called (evs : List SvcEvent) :
    ∀ s, s.pendingId = some 0 → s.fetchCount = 1 →
      (runSvc s evs).1.pendingId = some 0 ∧ (runSvc s evs).1.fetchCount = 1 := by
  induction evs with
  | nil => intro s hp hf; exact ⟨hp, hf⟩
  | cons e t ih =>
      intro s hp hf
      simp only [runSvc]
      obtain ⟨hp', hf'⟩ := svcStep_keeps_called s e hp hf
      exact ih _ hp' hf'

theorem runSvc_fetchCount (evs : List SvcEvent) :
    ∀ s, SvcInv s → s.pendingId = none →
      (runSvc s evs).1.fetchCount
        = min 1 (s.fetchCount + evs.countP (fun e => e == SvcEvent.call)) := by
  induction evs with
  | nil =>
      intro s h hp
      obtain ⟨_, hf0, _⟩ := (h.1 hp)
      simp [runSvc, hf0]
  | cons e t ih =>
      intro s h hp
      obtain ⟨hc0, hf0, hn0⟩ := (h.1 hp)
      cases e with
      | call =>
          simp only [runSvc, svcStep, svcCall, hc0, hp]
          have hcalled := runSvc_keeps_called t
            { cache := none, pendingId := some s.nextPid, status := PromStatus.pending
              nextPid := s.nextPid + 1, fetchCount := s.fetchCount + 1 }
            (by simp [hn0]) (by simp [hf0])
          rw [hcalled.2]
          have : (List.countP (fun e => e == SvcEvent.call) (SvcEvent.call :: t)) =
              List.countP (fun e => e == SvcEvent.call) t + 1 := by
            simp [List.countP_cons]
          rw [this, hf0]
          omega
      | resolve xs =>
          have hnop : svcResolve s xs = s := by
            unfold svcResolve
            rw [if_neg]
            intro hcontra
            rw [hp] at hcontra
            simp at hcontra
          simp only [runSvc, svcStep, hnop]
          rw [ih s h hp]
          simp [List.countP_cons]
      | reject =>
          have hnop : svcReject s = s := by
            unfold svcReject
            rw [if_neg]
            intro hcontra
            rw [hp] at hcontra
            simp at hcontra
          simp only [runSvc, svcStep, hnop]
          rw [ih s h hp]
          simp [List.countP_cons]

/-- **C3.** Single-flight contract of `getPokemonIndex`: over any sequence
of call / settlement events from process start, (1) the number of
underlying `fetchPokemonIndex()` network calls is `min 1 (number of
getPokemonIndex calls)` — exactly one fetch for the lifetime of the
process however many callers there are, and none if never called;
(2) every caller that is handed a pending operation is handed the *same*
single promise (id `0`); (3) any caller arriving after completion is
handed the cached resolved sequence directly. -/
theorem getPokemonIndex_single_flight (evs : List SvcEvent) :
    (runSvc svcInit evs).1.fetchCount
        = min 1 (evs.countP (fun e => e == SvcEvent.call))
    ∧ (runSvc svcInit evs).2.all resultOk = true
    ∧ (∀ xs, (runSvc svcInit evs).1.cache = some xs →
        (svcCall (runSvc svcInit evs).1).1 = CallResult.cachedValue xs) := by
  refine ⟨?_, runSvc_outs_ok evs svcInit svcInv_init, ?_⟩
  · have := runSvc_fetchCount evs svcInit svcInv_init rfl
    simpa [svcInit] using this
  · intro xs h
    simp [svcCall, h]

/-- Witness for C3: after `call, resolve, call`, a further call is served
the cached resolved sequence. -/
theorem getPokemonIndex_single_flight_witness :
    (svcCall (runSvc svcInit
        [SvcEvent.call, SvcEvent.resolve [⟨"b", 1⟩], SvcEvent.call]).1).1
      = CallResult.cachedValue [⟨"b", 1⟩] :=
  (getPokemonIndex_single_flight
    [SvcEvent.call, SvcEvent.resolve [⟨"b", 1⟩], SvcEvent.call]).2.2
    [⟨"b", 1⟩] (by decide)

theorem runSvc_rejected (evs : List SvcEvent) :
    ∀ s, s.cache = none → s.pendingId = some 0 →
      s.status = PromStatus.rejected → s.fetchCount = 1 →
      ((runSvc s evs).1.cache = none
        ∧ (runSvc s evs).1.pendingId = some 0
        ∧ (runSvc s evs).1.status = PromStatus.rejected
        ∧ (runSvc s evs).1.fetchCount = 1
        ∧ (runSvc s evs).2.all (fun r => r == CallResult.sharedPending 0) = true) := by
  induction evs with
  | nil => intro s hc hp hst hf; exact ⟨hc, hp, hst, hf, rfl⟩
  | cons e t ih =>
      intro s hc hp hst hf
      cases e with
      | call =>
          simp only [runSvc, svcStep, svcCall, hc, hp]
          obtain ⟨a, b, c, d, eall⟩ := ih s hc hp hst hf
          exact ⟨a, b, c, d, by simp [eall]⟩
      | resolve xs =>
          have hnop : svcResolve s xs = s := by
            unfold svcResolve
            rw [if_neg]
            intro hcontra
            rw [hst] at hcontra
            simp at hcontra
          simp only [runSvc, svcStep, hnop]
          obtain ⟨a, b, c, d, eall⟩ := ih s hc hp hst hf
          exact ⟨a, b, c, d, by simp [eall]⟩
      | reject =>
          have hnop : svcReject s = s := by
            unfold svcReject
            rw [if_neg]
            intro hcontra
            rw [hst] at hcontra
            simp at hcontra
          simp only [runSvc, svcStep, hnop]
          obtain ⟨a, b, c, d, eall⟩ := ih s hc hp hst hf
          exact ⟨a, b, c, d, by simp [eall]⟩

/-- **C10.** Permanence of a failed index fetch: once the single fetch has
rejected (`call` then `reject` from process start), whatever happens
afterwards the cache stays empty, the rejected promise stays stored, no
new network fetch is ever issued (`fetchCount` stays `1`), and every
subsequent caller is handed that same rejected promise (id `0`). -/
theorem getPokemonIndex_failure_permanent (evs : List SvcEvent) :
    ((runSvc (runSvc svcInit [SvcEvent.call, SvcEvent.reject]).1 evs).1.cache = none)
    ∧ ((runSvc (runSvc svcInit [SvcEvent.call, SvcEvent.reject]).1 evs).1.status
        = PromStatus.rejected)
    ∧ ((runSvc (runSvc svcInit [SvcEvent.call, SvcEvent.reject]).1 evs).1.fetchCount = 1)
    ∧ ((runSvc (runSvc svcInit [SvcEvent.call, SvcEvent.reject]).1 evs).2.all
        (fun r => r == CallResult.sharedPending 0) = true) := by
  obtain ⟨a, _, c, d, eall⟩ :=
    runSvc_rejected evs (runSvc svcInit [SvcEvent.call, SvcEvent.reject]).1
      rfl rfl rfl rfl
  exact ⟨a, c, d, eall⟩

/-! ## Drain coverage -/

theorem ascDrain_eq_aux (base L : Nat) :
    ∀ fuel lc, L - lc ≤ fuel →
      ascDrain base L lc = Finset.Ico (base + lc) (base + L) := by
  intro fuel
  induction fuel with
  | zero =>
      intro lc h
      rw [ascDrain]
      have hle : L ≤ lc := by omega
      rw [dif_pos hle]
      exact (Finset.Ico_eq_empty (by omega)).symm
  | succ n ih =>
      intro lc h
      rw [ascDrain]
      by_cases hle : L ≤ lc
      · rw [dif_pos hle]
        exact (Finset.Ico_eq_empty (by omega)).symm
      · rw [dif_neg hle]
        by_cases hfin : L ≤ lc + min PAGE_SIZE (L - lc)
        · rw [dif_pos hfin]
          have : base + lc + min PAGE_SIZE (L - lc) = base + L := by
            simp only [PAGE_SIZE] at *; omega
          rw [this]
        · rw [dif_neg hfin]
          have hrec : ascDrain base L (lc + PAGE_SIZE)
              = Finset.Ico (base + (lc + PAGE_SIZE)) (base + L) :=
            ih (lc + PAGE_SIZE) (by simp only [PAGE_SIZE] at *; omega)
          rw [hrec]
          have hmin : min PAGE_SIZE (L - lc) = PAGE_SIZE := by
            simp only [PAGE_SIZE] at *; omega
          rw [hmin]
          have e1 : base + lc + PAGE_SIZE = base + (lc + PAGE_SIZE) := by omega
          rw [e1]
          exact Finset.Ico_union_Ico_eq_Ico (by omega)
            (by simp only [PAGE_SIZE] at *; omega)

theorem descDrain_eq_aux (base L : Nat) :
    ∀ fuel lc, L - lc ≤ fuel →
      descDrain base L lc = Finset.Ico base (base + (L - lc)) := by
  intro fuel
  induction fuel with
  | zero =>
      intro lc h
      rw [descDrain]
      have hle : L ≤ lc := by omega
      rw [dif_pos hle]
      exact (Finset.Ico_eq_empty (by omega)).symm
  | succ n ih =>
      intro lc h
      rw [descDrain]
      by_cases hle : L ≤ lc
      · rw [dif_pos hle]
        exact (Finset.Ico_eq_empty (by omega)).symm
      · rw [dif_neg hle]
        by_cases hfin : L ≤ lc + min PAGE_SIZE (L - lc)
        · rw [dif_pos hfin]
          have e0 : L - lc - min PAGE_SIZE (L - lc) = 0 := by
            simp only [PAGE_SIZE] at *; omega
          rw [e0]
          have e1 : base + 0 = base := by omega
          rw [e1]
          have e2 : base + min PAGE_SIZE (L - lc) = base + (L - lc) := by
            simp only [PAGE_SIZE] at *; omega
          rw [e2]
        · rw [dif_neg hfin]
          have hrec : descDrain base L (lc + PAGE_SIZE)
              = Finset.Ico base (base + (L - (lc + PAGE_SIZE))) :=
            ih (lc + PAGE_SIZE) (by simp only [PAGE_SIZE] at *; omega)
          rw [hrec]
          have hmin : min PAGE_SIZE (L - lc) = PAGE_SIZE := by
            simp only [PAGE_SIZE] at *; omega
          rw [hmin]
          have e1 : base + (L - (lc + PAGE_SIZE)) = base + (L - lc - PAGE_SIZE) := by
            omega
          rw [e1]
          have e2 : base + (L - lc - PAGE_SIZE) + PAGE_SIZE = base + (L - lc) := by
            simp only [PAGE_SIZE] at *; omega
          rw [e2]
          rw [Finset.union_comm]
          exact Finset.Ico_union_Ico_eq_Ico (by omega)
            (by simp only [PAGE_SIZE] at *; omega)

/-- **C6.** For every generation, draining all pages in `ID_DESC` mode
(each page at offset `generationOffset + generationLimit - loadedCount -
pageSize` with `pageSize = min(PAGE_SIZE, remaining)`) fetches exactly the
same final set of catalog indices as draining the same generation
ascending — both cover the whole window `[offset, offset + limit)`. -/
theorem descDrain_eq_ascDrain (g : Generation) :
    descDrain (generationOffset g) (generationLimit g) 0
      = ascDrain (generationOffset g) (generationLimit g) 0 := by
  rw [descDrain_eq_aux (generationOffset g) (generationLimit g)
        (generationLimit g) 0 (by omega),
      ascDrain_eq_aux (generationOffset g) (generationLimit g)
        (generationLimit g) 0 (by omega)]
  simp

/-! ## Stale in-flight loads and the missing `loadedCount` reset -/

/-- **C1.** Refutation trace: from a fresh `gen1` session, a load starts
(serving gen1's first page, catalog ids `1..20`), the user switches to
`gen2` (the reset effect runs), the re-fired load effect is a no-op (the
`loading` guard), and then the *gen1* response arrives: its records are
merged into the new `gen2` session's accumulated list — the stale
completion is applied, not discarded.  `catalogPokemon 0` (id 1) is a gen1
record, far outside gen2's window `[151, 251)`. -/
theorem pager_stale_load_merged_after_reset :
    (runPager pageEnv (pagerInit Generation.gen1 SortOption.ID_ASC)
        [PagerEvent.startLoad,
         PagerEvent.changeParams Generation.gen2 SortOption.ID_ASC,
         PagerEvent.startLoad,
         PagerEvent.completeLoad]).generation = Generation.gen2
    ∧ catalogPokemon 0 ∈
        (runPager pageEnv (pagerInit Generation.gen1 SortOption.ID_ASC)
          [PagerEvent.startLoad,
           PagerEvent.changeParams Generation.gen2 SortOption.ID_ASC,
           PagerEvent.startLoad,
           PagerEvent.completeLoad]).pokemons := by
  constructor
  · rfl
  · decide

/-! ## Global search: matching pipeline -/

theorem mem_take_filter_iff {α : Type} (p : α → Bool) :
    ∀ (l : List α) (k : Nat) (e : α),
      e ∈ (l.filter p).take k ↔
        ∃ i, ∃ h : i < l.length, l.get ⟨i, h⟩ = e ∧ p e = true
          ∧ (l.take i).countP p < k := by
  intro l
  induction l with
  | nil =>
      intro k e
      simp
  | cons a t ih =>
      intro k e
      by_cases hpa : p a = true
      · rw [List.filter_cons, if_pos hpa]
        cases k with
        | zero => simp
        | succ k' =>
            rw [List.take_succ_cons]
            simp only [List.mem_cons]
            constructor
            · rintro (rfl | hmem)
              · exact ⟨0, by simp, rfl, hpa, by simp⟩
              · obtain ⟨i, h, hget, hpe, hcount⟩ := (ih k' e).mp hmem
                refine ⟨i + 1, by simpa using h, by simpa using hget, hpe, ?_⟩
                rw [List.take_succ_cons]
                simp [List.countP_cons, hpa]
                omega
            · rintro ⟨i, h, hget, hpe, hcount⟩
              cases i with
              | zero =>
                  left
                  exact hget.symm
              | succ i' =>
                  right
                  apply (ih k' e).mpr
                  refine ⟨i', by simpa using h, by simpa using hget, hpe, ?_⟩
                  rw [List.take_succ_cons] at hcount
                  simp [List.countP_cons, hpa] at hcount
                  omega
      · rw [List.filter_cons, if_neg hpa]
        constructor
        · intro hmem
          obtain ⟨i, h, hget, hpe, hcount⟩ := (ih k e).mp hmem
          refine ⟨i + 1, by simpa using h, by simpa using hget, hpe, ?_⟩
          rw [List.take_succ_cons]
          simp [List.countP_cons, hpa]
          exact hcount
        · rintro ⟨i, h, hget, hpe, hcount⟩
          cases i with
          | zero =>
              exfalso
              have hae : a = e := hget
              rw [← hae] at hpe
              exact hpa hpe
          | succ i' =>
              apply (ih k e).mpr
              refine ⟨i', by simpa using h, by simpa using hget, hpe, ?_⟩
              rw [List.take_succ_cons] at hcount
              simp [List.countP_cons, hpa] at hcount
              exact hcount

/-- **C7.** Characterization of the global-search match stage: an entry is
returned for a (non-empty, debounced) term exactly when it occurs at some
index position where it satisfies the match predicate (its name contains
the term, or the decimal string of its id contains the term) and fewer
than 20 earlier index entries satisfy the predicate — i.e. precisely the
first 20 matches in index order. -/
theorem searchMatches_spec (index : List PokemonIndexItem) (term : String)
    (e : PokemonIndexItem) :
    e ∈ searchMatches index term ↔
      ∃ i, ∃ h : i < index.length, index.get ⟨i, h⟩ = e
        ∧ searchPred term e = true
        ∧ (index.take i).countP (searchPred term) < 20 :=
  mem_take_filter_iff (searchPred term) index 20 e

/-- Witness for C7: the query `"25"` matches the entry with id `25`
(decimal string `"25"` contains `"25"`). -/
theorem searchMatches_spec_witness :
    (⟨"pikachu", 25⟩ : PokemonIndexItem) ∈
      searchMatches [⟨"pikachu", 25⟩] "25" :=
  (searchMatches_spec [⟨"pikachu", 25⟩] "25" ⟨"pikachu", 25⟩).mpr
    ⟨0, by decide, rfl, by decide, by decide⟩

/-! ## Global search: stale completions are applied, not discarded -/

/-- **C4 (counterexample).** Refutation trace: the query changes from
`"a"` to `"b"` while `"a"`'s resolution is in flight; `"b"`'s resolution
lands first, then `"a"`'s stale completion arrives — and is applied: the
final result state belongs to the superseded query `"a"` although the
current query is `"b"`. -/
theorem search_stale_completion_applied :
    (runSearch twoQueryEnv searchInit
        [SearchEvent.setQuery "a", SearchEvent.setQuery "b",
         SearchEvent.complete 1, SearchEvent.complete 0]).search = "b"
    ∧ (runSearch twoQueryEnv searchInit
        [SearchEvent.setQuery "a", SearchEvent.setQuery "b",
         SearchEvent.complete 1, SearchEvent.complete 0]).results
      = [{ id := 1, name := "bulbasaur", types := [], weight := 69, height := 7 }] := by
  constructor <;> decide

/-- **C4 (amended).** What the code actually does: a completing
`fetchResults` run applies its payload to the result state
unconditionally — no cancellation token and no query comparison guard the
`setResults` call — so whichever invocation completes last wins,
including one whose query has been superseded. -/
theorem searchStep_complete_applies_unconditionally (env : SearchEnv)
    (st : SearchState) (i : Nat) (inv : SearchInvocation)
    (h : st.inflight[i]? = some inv) :
    (searchStep env st (SearchEvent.complete i)).results = inv.payload
    ∧ (searchStep env st (SearchEvent.complete i)).loading = false := by
  simp [searchStep, h]

/-- Witness for the amended C4: a stale invocation for query `"a"`
completes while the current query is `"b"`, and its payload is applied. -/
theorem searchStep_complete_applies_unconditionally_witness :
    (searchStep twoQueryEnv
        { search := "b", results := [], loading := true
          inflight := [⟨"a", twoQueryEnv "a"⟩] }
        (SearchEvent.complete 0)).results = twoQueryEnv "a"
    ∧ (searchStep twoQueryEnv
        { search := "b", results := [], loading := true
          inflight := [⟨"a", twoQueryEnv "a"⟩] }
        (SearchEvent.complete 0)).loading = false :=
  searchStep_complete_applies_unconditionally twoQueryEnv
    { search := "b", results := [], loading := true
      inflight := [⟨"a", twoQueryEnv "a"⟩] }
    0 ⟨"a", twoQueryEnv "a"⟩ rfl

/-! ## URL id extraction -/

theorem splitSlash_ne_nil : ∀ l, splitSlash l ≠ [] := by
  intro l
  induction l with
  | nil => simp [splitSlash]
  | cons c rest ih =>
      simp only [splitSlash]
      by_cases hc : c = '/'
      · simp [hc]
      · rw [if_neg hc]
        cases hr : splitSlash rest with
        | nil => simp
        | cons s ss => simp

theorem splitSlash_cons_slash (rest : List Char) :
    splitSlash ('/' :: rest) = [] :: splitSlash rest := by
  rw [splitSlash, if_pos rfl]

theorem splitSlash_cons_other (c : Char) (rest : List Char) (hc : ¬c = '/') :
    splitSlash (c :: rest)
      = match splitSlash rest with
        | [] => [[c]]
        | seg :: segs => (c :: seg) :: segs := by
  rw [splitSlash, if_neg hc]

theorem splitSlash_append (a b : List Char) :
    splitSlash (a ++ '/' :: b) = splitSlash a ++ splitSlash b := by
  induction a with
  | nil => simp [splitSlash]
  | cons c a' ih =>
      rw [List.cons_append]
      by_cases hc : c = '/'
      · subst hc
        rw [splitSlash_cons_slash, splitSlash_cons_slash, ih]
        rfl
      · obtain ⟨s, ss, hss⟩ : ∃ s ss, splitSlash a' = s :: ss := by
          cases h : splitSlash a' with
          | nil => exact absurd h (splitSlash_ne_nil a')
          | cons s ss => exact ⟨s, ss, rfl⟩
        rw [splitSlash_cons_other c _ hc, splitSlash_cons_other c _ hc, ih, hss,
            List.cons_append]
        rfl

theorem splitSlash_no_slash (l : List Char) (h : ∀ c ∈ l, c ≠ '/') :
    splitSlash l = [l] := by
  induction l with
  | nil => rfl
  | cons c rest ih =>
      have hc : c ≠ '/' := h c (by simp)
      have hrest := ih (fun x hx => h x (by simp [hx]))
      simp only [splitSlash, if_neg hc, hrest]

theorem digitChar_isDigit (d : Nat) (h : d < 10) :
    (Char.ofNat (d + 48)).isDigit = true := by
  interval_cases d <;> decide

theorem digitChar_toNat (d : Nat) (h : d < 10) :
    (Char.ofNat (d + 48)).toNat = d + 48 := by
  interval_cases d <;> decide

theorem digitChar_ne_slash (d : Nat) (h : d < 10) :
    Char.ofNat (d + 48) ≠ '/' := by
  interval_cases d <;> decide

theorem decimalRepr_ne_nil (n : Nat) : decimalRepr n ≠ [] := by
  rw [decimalRepr]
  split
  · simp
  · simp

theorem decimalRepr_all_digits :
    ∀ n, (decimalRepr n).all (fun c => c.isDigit) = true := by
  intro n
  induction n using Nat.strong_induction_on with
  | _ n ih =>
      rw [decimalRepr]
      split
      · rename_i h
        simp [digitChar_isDigit n h]
      · rename_i h
        rw [List.all_append]
        have h1 := ih (n / 10) (by omega)
        simp [h1, digitChar_isDigit (n % 10) (by omega)]

theorem decimalRepr_no_slash : ∀ n, ∀ c ∈ decimalRepr n, c ≠ '/' := by
  intro n
  induction n using Nat.strong_induction_on with
  | _ n ih =>
      intro c hc
      rw [decimalRepr] at hc
      split at hc
      · rename_i h
        simp at hc
        subst hc
        exact digitChar_ne_slash n h
      · rename_i h
        rw [List.mem_append] at hc
        rcases hc with hc | hc
        · exact ih (n / 10) (by omega) c hc
        · simp at hc
          subst hc
          exact digitChar_ne_slash (n % 10) (by omega)

theorem digitsVal_append (a : List Char) (c : Char) :
    digitsVal (a ++ [c]) = 10 * digitsVal a + (c.toNat - 48) := by
  unfold digitsVal
  rw [List.foldl_append]
  rfl

theorem digitsVal_decimalRepr : ∀ n, digitsVal (decimalRepr n) = n := by
  intro n
  induction n using Nat.strong_induction_on with
  | _ n ih =>
      rw [decimalRepr]
      split
      · rename_i h
        unfold digitsVal
        simp [digitChar_toNat n h]
      · rename_i h
        rw [digitsVal_append, ih (n / 10) (by omega),
            digitChar_toNat (n % 10) (by omega)]
        omega

theorem jsNumber_decimalRepr (n : Nat) : jsNumber (decimalRepr n) = some n := by
  unfold jsNumber
  rw [if_pos ⟨decimalRepr_ne_nil n, decimalRepr_all_digits n⟩,
      digitsVal_decimalRepr n]

/-- **C5 (counterexample).** A URL whose last non-empty segment is not
numeric: `extractIdFromUrl` silently yields `NaN` (`none`) and the mapper
emits an index entry carrying that `NaN` id — nothing fails with a
`MalformedResponseError` (no such error exists in the code). -/
theorem extractIdFromUrl_nan_not_error :
    extractIdFromUrl "https://x/api/abc/" = none
    ∧ mapPokemonIndex [⟨"weird", "https://x/api/abc/"⟩] = [("weird", none)] := by
  constructor <;> decide

/-- **C5 (amended).** What the normalizer actually guarantees: the id is
parsed from the last non-empty slash-delimited segment — a URL ending in
`/‹decimal of n›/` extracts `n` — but a last segment containing any
non-digit character yields `NaN` (`none`) silently instead of failing
with `MalformedResponseError`. -/
theorem extractIdFromUrl_amended :
    (∀ (pre : List Char) (n : Nat),
        extractIdFromUrl
          (String.mk (pre ++ '/' :: (decimalRepr n ++ ['/']))) = some n)
    ∧ (∀ (pre s : List Char), s ≠ [] → (∀ c ∈ s, c ≠ '/') →
        (∃ c ∈ s, c.isDigit = false) →
        extractIdFromUrl (String.mk (pre ++ '/' :: (s ++ ['/']))) = none) := by
  have key : ∀ (pre s : List Char), s ≠ [] → (∀ c ∈ s, c ≠ '/') →
      extractIdFromUrl (String.mk (pre ++ '/' :: (s ++ ['/']))) = jsNumber s := by
    intro pre s hne hns
    unfold extractIdFromUrl
    have hdata : (String.mk (pre ++ '/' :: (s ++ ['/']))).data
        = pre ++ '/' :: (s ++ ['/']) := rfl
    rw [hdata, splitSlash_append]
    have hs : s ++ ['/'] = s ++ '/' :: ([] : List Char) := rfl
    rw [hs, splitSlash_append, splitSlash_no_slash s hns]
    have hsplit : splitSlash ([] : List Char) = [[]] := rfl
    rw [hsplit]
    rw [List.filter_append, List.filter_append]
    have hfs : List.filter (fun seg => decide ¬(seg = [])) [s] = [s] := by
      simp [List.filter, hne]
    have hfe : List.filter (fun seg => decide ¬(seg = [])) [([] : List Char)] = [] := by
      simp [List.filter]
    simp only [hfs, hfe, List.append_nil]
    rw [List.getLast?_concat]
  constructor
  · intro pre n
    rw [key pre (decimalRepr n) (decimalRepr_ne_nil n) (decimalRepr_no_slash n)]
    exact jsNumber_decimalRepr n
  · intro pre s hne hns hbad
    rw [key pre s hne hns]
    unfold jsNumber
    rw [if_neg]
    intro hcontra
    obtain ⟨c, hcs, hcd⟩ := hbad
    have := List.all_eq_true.mp hcontra.2 c hcs
    rw [hcd] at this
    exact Bool.false_ne_true this

/-- Witness for the amended C5: a trailing decimal segment extracts its
value, and a trailing alphabetic segment yields `NaN` (`none`). -/
theorem extractIdFromUrl_amended_witness :
    extractIdFromUrl
        (String.mk ("https://x".data ++ '/' :: (decimalRepr 25 ++ ['/']))) = some 25
    ∧ extractIdFromUrl
        (String.mk ("https://x".data ++ '/' :: ("abc".data ++ ['/']))) = none :=
  ⟨extractIdFromUrl_amended.1 "https://x".data 25,
   extractIdFromUrl_amended.2 "https://x".data "abc".data
     (by decide) (by decide) (by decide)⟩

/-! ## Response-cache persistence -/

/-- **C8.** Quota failure during cache persistence is non-fatal: with the
quota exceeded, `getPokemons` still returns normally (`Except.ok` — the
`catch` swallows the storage error), the persisted cache is cleared
wholesale (`removeItem`), and the in-memory list of records returned for
the page is exactly the same as when persistence succeeds. -/
theorem getPokemons_quota_nonfatal (storage : Option NameCache)
    (page : List String) (detail : String → Pokemon) :
    getPokemons storage page detail true
      = Except.ok (none,
          page.map (fun n => (cacheLookup (storage.getD []) n).getD (detail n)))
    ∧ Except.map Prod.snd (getPokemons storage page detail true)
      = Except.map Prod.snd (getPokemons storage page detail false) := by
  constructor <;> rfl

/-- **C2.** Refutation trace: from a fresh `gen1` session, one
`fetchNextPage` raises `loadedCount` to `20`; switching to `gen2` then
runs the reset effect, which clears `pokemons` and restores `hasMore` but
leaves `loadedCount` at `20` — it is not reset to `0` as the claim
states. -/
theorem pager_loadedCount_not_reset_on_change :
    (runPager pageEnv (pagerInit Generation.gen1 SortOption.ID_ASC)
        [PagerEvent.fetchNextPage,
         PagerEvent.changeParams Generation.gen2 SortOption.ID_ASC]).loadedCount = 20
    ∧ (runPager pageEnv (pagerInit Generation.gen1 SortOption.ID_ASC)
        [PagerEvent.fetchNextPage,
         PagerEvent.changeParams Generation.gen2 SortOption.ID_ASC]).generation
      = Generation.gen2 := by
  exact ⟨rfl, rfl⟩

end Pokedex
